import Mathlib

/-!
Verification development for the pterminal rendering core.

The definitions below are shallow embeddings of the Rust sources in
crates/pterminal-core (split/mod.rs, workspace/mod.rs, terminal/emulator.rs,
terminal/spsc.rs) and crates/pterminal-render (text.rs).  Machine floats
(f32 ratios and normalized rectangle coordinates) are modelled by exact
rationals; u8/u16/usize arithmetic is modelled by Nat with explicit
truncation or wraparound where the source performs them.
-/

/-! ## Split tree (crates/pterminal-core/src/split/mod.rs) -/

/-- Pane identifier, source type `u64`.  Ids are only compared for equality,
so Nat is a faithful model. -/
abbrev PaneId := Nat

/-- Source enum `SplitDirection`. -/
inductive SplitDirection : Type
  | horizontal
  | vertical
deriving DecidableEq, Repr

/-- Source struct `PaneRect` (f32 fields modelled as rationals). -/
structure PaneRect : Type where
  x : ℚ
  y : ℚ
  width : ℚ
  height : ℚ
deriving DecidableEq, Repr

/-- Source enum `SplitNode`: a leaf pane or a ratio split of two subtrees. -/
inductive SplitNode : Type
  | leaf (id : PaneId)
  | split (direction : SplitDirection) (ratio : ℚ) (first second : SplitNode)
deriving DecidableEq, Repr

/-- Source struct `SplitTree` holding the root node. -/
structure SplitTree : Type where
  root : SplitNode
deriving DecidableEq, Repr

/-- Source `SplitTree::new`. -/
def SplitTree.new (pane_id : PaneId) : SplitTree :=
  ⟨SplitNode.leaf pane_id⟩

/-- Source `SplitTree::split_node`; the Bool mirrors the Rust return value
(`true` when the target leaf was found and replaced). -/
def splitNode : SplitNode → PaneId → SplitDirection → PaneId → SplitNode × Bool
  | SplitNode.leaf id, target, direction, newPane =>
      if id = target then
        (SplitNode.split direction (1/2) (SplitNode.leaf id) (SplitNode.leaf newPane), true)
      else
        (SplitNode.leaf id, false)
  | SplitNode.split d r f s, target, direction, newPane =>
      match splitNode f target direction newPane with
      | (f', true) => (SplitNode.split d r f' s, true)
      | (f', false) =>
          match splitNode s target direction newPane with
          | (s', bs) => (SplitNode.split d r f' s', bs)

/-- Source `SplitTree::split`. -/
def SplitTree.split (t : SplitTree) (target : PaneId) (direction : SplitDirection)
    (newPane : PaneId) : SplitTree :=
  ⟨(splitNode t.root target direction newPane).1⟩

/-- Source `SplitTree::remove_node`: if a direct child is the target leaf the
node is replaced by the sibling subtree, otherwise recurse (first subtree,
then second). -/
def removeNode : SplitNode → PaneId → SplitNode × Bool
  | SplitNode.leaf id, _ => (SplitNode.leaf id, false)
  | SplitNode.split d r f s, p =>
      if f = SplitNode.leaf p then (s, true)
      else if s = SplitNode.leaf p then (f, true)
      else
        match removeNode f p with
        | (f', true) => (SplitNode.split d r f' s, true)
        | (f', false) =>
            match removeNode s p with
            | (s', bs) => (SplitNode.split d r f' s', bs)

/-- Source `SplitTree::remove`: removing the only (root) pane fails. -/
def SplitTree.remove (t : SplitTree) (pane_id : PaneId) : SplitTree × Bool :=
  if t.root = SplitNode.leaf pane_id then (t, false)
  else
    match removeNode t.root pane_id with
    | (n, b) => (⟨n⟩, b)

/-- Source `SplitTree::layout_node`: depth-first construction of the pane
rectangles, splitting width (horizontal) or height (vertical) at the ratio. -/
def layoutNode : SplitNode → PaneRect → List (PaneId × PaneRect)
  | SplitNode.leaf id, rect => [(id, rect)]
  | SplitNode.split direction ratio f s, rect =>
      match direction with
      | SplitDirection.horizontal =>
          let firstW := rect.width * ratio
          layoutNode f ⟨rect.x, rect.y, firstW, rect.height⟩ ++
            layoutNode s ⟨rect.x + firstW, rect.y, rect.width - firstW, rect.height⟩
      | SplitDirection.vertical =>
          let firstH := rect.height * ratio
          layoutNode f ⟨rect.x, rect.y, rect.width, firstH⟩ ++
            layoutNode s ⟨rect.x, rect.y + firstH, rect.width, rect.height - firstH⟩

/-- Source `SplitTree::layout`: layout over the unit square. -/
def SplitTree.layout (t : SplitTree) : List (PaneId × PaneRect) :=
  layoutNode t.root ⟨0, 0, 1, 1⟩

/-- Source `SplitTree::collect_ids` (in-order leaf ids). -/
def collectIds : SplitNode → List PaneId
  | SplitNode.leaf id => [id]
  | SplitNode.split _ _ f s => collectIds f ++ collectIds s

/-- Source `SplitTree::pane_ids`. -/
def SplitTree.paneIds (t : SplitTree) : List PaneId :=
  collectIds t.root

/-- Source `SplitTree::node_contains`. -/
def nodeContains : SplitNode → PaneId → Bool
  | SplitNode.leaf id, p => id = p
  | SplitNode.split _ _ f s, p => nodeContains f p || nodeContains s p

/-- Source `SplitTree::contains`. -/
def SplitTree.contains (t : SplitTree) (pane_id : PaneId) : Bool :=
  nodeContains t.root pane_id

/-- Rust `f32::clamp(0.1, 0.9)` applied to the new ratio (exact-rational
model of the source clamp: below the minimum gives the minimum, above the
maximum gives the maximum). -/
def clampRatio (x : ℚ) : ℚ :=
  if x < 1/10 then 1/10 else if 9/10 < x then 9/10 else x

/-- Source `SplitTree::adjust_ratio_node`: recurse towards the pane; the
deepest split that still contains it (the parent of its leaf) gets the
clamped ratio update. -/
def adjustRatioNode : SplitNode → PaneId → ℚ → SplitNode × Bool
  | SplitNode.leaf id, _, _ => (SplitNode.leaf id, false)
  | SplitNode.split d r f s, p, delta =>
      if nodeContains f p then
        match adjustRatioNode f p delta with
        | (f', true) => (SplitNode.split d r f' s, true)
        | (f', false) => (SplitNode.split d (clampRatio (r + delta)) f' s, true)
      else if nodeContains s p then
        match adjustRatioNode s p delta with
        | (s', true) => (SplitNode.split d r f s', true)
        | (s', false) => (SplitNode.split d (clampRatio (r + delta)) f s', true)
      else (SplitNode.split d r f s, false)

/-- Source `SplitTree::adjust_ratio`. -/
def SplitTree.adjustRatio (t : SplitTree) (pane_id : PaneId) (delta : ℚ) : SplitTree :=
  ⟨(adjustRatioNode t.root pane_id delta).1⟩

/-! ## Split-tree lemmas -/

/-- All split ratios of a node lie strictly between 0 and 1. -/
def ratiosOK : SplitNode → Bool
  | SplitNode.leaf _ => true
  | SplitNode.split _ r f s => decide (0 < r) && decide (r < 1) && ratiosOK f && ratiosOK s

/-- The removal step as the specification words it: locate the leaf holding
the pane and replace its parent split by the sibling subtree (none when the
pane has no removable leaf).  Direct children are checked before recursing,
first subtree before second, exactly as the claim's source lines do. -/
def removeLeafSpec : SplitNode → PaneId → Option SplitNode
  | SplitNode.leaf _, _ => none
  | SplitNode.split d r f s, p =>
      if f = SplitNode.leaf p then some s
      else if s = SplitNode.leaf p then some f
      else
        match removeLeafSpec f p with
        | some f' => some (SplitNode.split d r f' s)
        | none =>
            match removeLeafSpec s p with
            | some s' => some (SplitNode.split d r f s')
            | none => none

/-- The ratio update as the specification words it: the closest ancestor
split that directly separates the pane from its sibling (the parent of its
leaf) gets the clamped ratio, and no other node changes. -/
def updateParentRatio : SplitNode → PaneId → ℚ → SplitNode
  | SplitNode.leaf id, _, _ => SplitNode.leaf id
  | SplitNode.split d r f s, p, delta =>
      if f = SplitNode.leaf p ∨ s = SplitNode.leaf p then
        SplitNode.split d (clampRatio (r + delta)) f s
      else if nodeContains f p then
        SplitNode.split d r (updateParentRatio f p delta) s
      else if nodeContains s p then
        SplitNode.split d r f (updateParentRatio s p delta)
      else SplitNode.split d r f s

/-! ## Operation sequences on split trees -/

/-- The mutating operations named by the layout invariant: `split` and
`remove` calls on a `SplitTree`. -/
inductive TreeOp : Type
  | split (target : PaneId) (direction : SplitDirection) (newPane : PaneId)
  | remove (pane : PaneId)
deriving DecidableEq, Repr

def applyOp (t : SplitTree) : TreeOp → SplitTree
  | TreeOp.split target direction newPane => t.split target direction newPane
  | TreeOp.remove pane => (t.remove pane).1

def applyOps (t : SplitTree) : List TreeOp → SplitTree
  | [] => t
  | op :: ops => applyOps (applyOp t op) ops

/-- Every split in the sequence inserts a pane id that is not yet in the
tree (the freshness discipline the workspace manager's monotonic pane-id
counter provides). -/
def freshOps : SplitTree → List TreeOp → Bool
  | _, [] => true
  | t, op :: ops =>
      (match op with
       | TreeOp.split _ _ newPane => !(t.contains newPane)
       | TreeOp.remove _ => true) && freshOps (applyOp t op) ops

/-- Structural invariant: all ratios in (0, 1) and no duplicate pane ids. -/
def TreeInv (t : SplitTree) : Prop :=
  ratiosOK t.root = true ∧ t.paneIds.Nodup

/-! ## Layout geometry -/

/-- Membership of a point in the half-open box spanned by a pane rect. -/
def rectContains (r : PaneRect) (px py : ℚ) : Bool :=
  decide (r.x ≤ px ∧ px < r.x + r.width ∧ r.y ≤ py ∧ py < r.y + r.height)

/-! ## Workspace (crates/pterminal-core/src/workspace/mod.rs) -/

/-- Source struct `Workspace`: id, display name, split tree (a public
field) and the active pane. -/
structure Workspace : Type where
  id : Nat
  name : String
  split_tree : SplitTree
  active_pane : PaneId
deriving DecidableEq, Repr

/-- Source `Workspace::new`. -/
def Workspace.new (id : Nat) (pane_id : PaneId) : Workspace :=
  ⟨id, "Workspace " ++ toString id, SplitTree.new pane_id, pane_id⟩

/-- Source `Workspace::set_active_pane`: ignored unless the split tree
contains the id. -/
def Workspace.setActivePane (w : Workspace) (id : PaneId) : Workspace :=
  if w.split_tree.contains id then { w with active_pane := id } else w

/-- The operations a caller can perform on one workspace: the active-pane
setter plus the split-tree mutations reachable through the public
split_tree field (exactly what the UI layer does). -/
inductive WsOp : Type
  | setActive (id : PaneId)
  | split (target : PaneId) (direction : SplitDirection) (newPane : PaneId)
  | remove (pane : PaneId)
  | adjustRatio (pane : PaneId) (delta : ℚ)
deriving DecidableEq, Repr

def applyWsOp (w : Workspace) : WsOp → Workspace
  | WsOp.setActive id => w.setActivePane id
  | WsOp.split target direction newPane =>
      { w with split_tree := w.split_tree.split target direction newPane }
  | WsOp.remove pane => { w with split_tree := (w.split_tree.remove pane).1 }
  | WsOp.adjustRatio pane delta =>
      { w with split_tree := w.split_tree.adjustRatio pane delta }

def applyWsOps (w : Workspace) : List WsOp → Workspace
  | [] => w
  | op :: ops => applyWsOps (applyWsOp w op) ops

/-- No remove in the sequence targets the pane that is active at the moment
the remove is applied. -/
def safeOps : Workspace → List WsOp → Bool
  | _, [] => true
  | w, op :: ops =>
      (match op with
       | WsOp.remove pane => decide (pane ≠ w.active_pane)
       | _ => true) && safeOps (applyWsOp w op) ops

/-- The workspace focus invariant: the active pane is a leaf of the tree. -/
def WsInv (w : Workspace) : Prop :=
  w.split_tree.contains w.active_pane = true

/-! ## Terminal emulator (crates/pterminal-core/src/terminal/emulator.rs) -/

/-- Source struct `RgbColor` (config/theme.rs): u8 channels as Nat. -/
structure Rgb : Type where
  r : Nat
  g : Nat
  b : Nat
deriving DecidableEq, Repr

/-- Source struct `GridCell`: one extracted terminal cell. -/
structure GridCell : Type where
  c : Char
  fg : Rgb
  bg : Rgb
  bold : Bool
  italic : Bool
  underline : Bool
  wide_spacer : Bool
deriving DecidableEq, Repr

/-- Source struct `GridLine`. -/
structure GridLine : Type where
  cells : List GridCell
deriving DecidableEq, Repr

/-- Source struct `GridDelta` (`Default` gives full = false, no rows). -/
structure GridDelta : Type where
  full : Bool
  dirty_rows : List Nat
deriving DecidableEq, Repr

def GridDelta.default : GridDelta := ⟨false, []⟩

/-- Damage reported by the external alacritty terminal, modelled from spec
section 4.C: either the whole viewport or a set of damaged row indices;
resetting damage leaves an empty partial set. -/
inductive TermDamage : Type
  | full
  | damagedRows (lines : List Nat)
deriving DecidableEq, Repr

/-- State of the external alacritty `Term` that extraction reads: viewport
shape, display offset, the already-color-resolved cell at (line, column)
(the source's unconditional `grid[point]` lookup followed by
`alacritty_color_to_rgb`), and pending damage. -/
structure Term : Type where
  screenLines : Nat
  columns : Nat
  displayOffset : Nat
  cellAt : Int → Nat → GridCell
  damage : TermDamage

/-- Source `term.reset_damage()`: modelled from spec section 4.C ("the
emulator MUST clear damage after reporting"). -/
def Term.resetDamage (t : Term) : Term :=
  { t with damage := TermDamage.damagedRows [] }

/-- The per-row cell loop shared by the full and dirty paths of the source
extraction functions: one cell per column, at line - display_offset. -/
def extractRow (t : Term) (lineIdx : Nat) : GridLine :=
  ⟨(List.range t.columns).map fun colIdx =>
    t.cellAt ((lineIdx : Int) - (t.displayOffset : Int)) colIdx⟩

/-- Source shape test in `extract_grid_delta_from_term`: row count
mismatch, or first row's cell count mismatch, or (when more than one row)
any row's cell count mismatch. -/
def shapeChangedB (out : List GridLine) (numLines numCols : Nat) : Bool :=
  decide (out.length ≠ numLines) ||
    (match out.head? with
     | some line => decide (line.cells.length ≠ numCols)
     | none => false) ||
    (decide (1 < out.length) && out.any fun line => decide (line.cells.length ≠ numCols))

/-- Source damage pull: Full sets full = true; Partial keeps the damaged
lines below the current row count. -/
def pullDamage (t : Term) (numLines : Nat) : GridDelta :=
  match t.damage with
  | TermDamage.full => { GridDelta.default with full := true }
  | TermDamage.damagedRows lines =>
      { GridDelta.default with dirty_rows := lines.filter fun l => decide (l < numLines) }

/-- Source dirty-row rewrite loop: rows at or past the cache length are
skipped, others are rewritten in place from the grid. -/
def rewriteRows (t : Term) (out : List GridLine) : List Nat → List GridLine
  | [] => out
  | i :: rest =>
      if i < out.length then rewriteRows t (out.set i (extractRow t i)) rest
      else rewriteRows t out rest

/-- Source `extract_grid_delta_from_term`: detect shape change, pull
damage, force full (clearing the partial set) on shape change, then either
rewrite the whole cache (resize to the row count, every row rebuilt from
the grid, dirty rows extended with all row indices) or rewrite only the
dirty rows; damage is reset at the end.  Returns (delta, updated cache,
term after reset_damage). -/
def extractGridDelta (t : Term) (out : List GridLine) :
    GridDelta × List GridLine × Term :=
  let numLines := t.screenLines
  let numCols := t.columns
  let shapeChanged := shapeChangedB out numLines numCols
  let delta0 := pullDamage t numLines
  let delta1 := if shapeChanged then { delta0 with full := true, dirty_rows := [] } else delta0
  if delta1.full then
    let out1 := (List.range numLines).map (extractRow t)
    ({ delta1 with dirty_rows := delta1.dirty_rows ++ List.range numLines }, out1,
      t.resetDamage)
  else
    (delta1, rewriteRows t out delta1.dirty_rows, t.resetDamage)

/-- Source `extract_grid_full_from_term`: a read-only projection of the
grid; neither the damage tracker nor the parser-side delta cache changes. -/
def extractGridFull (t : Term) : List GridLine :=
  (List.range t.screenLines).map (extractRow t)

/-- The parser-thread state touched by the extraction control commands:
the term and the parser-side render cache. -/
structure ParserState : Type where
  term : Term
  renderCache : List GridLine

/-- Source `handle_control_command`, `ExtractFull` arm: reply with the full
projection, state unchanged. -/
def handleExtractFull (st : ParserState) : List GridLine × ParserState :=
  (extractGridFull st.term, st)

/-- Source `handle_control_command`, `ExtractDelta` arm: delta extraction
against the parser-side render cache. -/
def handleExtractDelta (st : ParserState) : GridDelta × ParserState :=
  match extractGridDelta st.term st.renderCache with
  | (delta, cache, term) => (delta, ⟨term, cache⟩)

/-! ## 256-color resolution -/

/-- The theme colors the indexed-color resolution reads: the 16-entry ansi
palette (config/theme.rs, field `ansi: [RgbColor; 16]`). -/
structure ThemeColors : Type where
  ansi : Fin 16 → Rgb

/-- Source `index_256_to_rgb`.  All u8 intermediate values stay at or below
255 (55 + 40*5 = 255, 8 + 10*23 = 238), so Nat arithmetic is exact. -/
def index256ToRgb (idx : Nat) : Rgb :=
  if idx < 16 then
    ⟨0, 0, 0⟩
  else if idx < 232 then
    let i := idx - 16
    let r := (i / 36) % 6
    let g := (i / 6) % 6
    let b := i % 6
    let toVal := fun v => if v = 0 then 0 else 55 + 40 * v
    ⟨toVal r, toVal g, toVal b⟩
  else
    let v := 8 + 10 * (idx - 232)
    ⟨v, v, v⟩

/-- Source `alacritty_color_to_rgb`, `Color::Indexed` arm: indices below
16 read the theme palette, the rest go through index_256_to_rgb. -/
def resolveIndexed (theme : ThemeColors) (idx : Nat) : Rgb :=
  if h : idx < 16 then theme.ansi ⟨idx, h⟩ else index256ToRgb idx

/-- The per-axis cube ramp as the specification words it: level 0 maps to
0, level v > 0 maps to 55 + 40*v. -/
def ramp (v : Nat) : Nat :=
  if v = 0 then 0 else 55 + 40 * v

/-! ## Selection background spans (crates/pterminal-render/src/text.rs) -/

/-- Source struct `BgSpan` with u16 fields as Nat; the rgba color (an
injective per-channel conversion of the RgbColor) is modelled by the
RgbColor itself. -/
structure BgSpan : Type where
  col : Nat
  row : Nat
  width : Nat
  color : Rgb
deriving DecidableEq, Repr

/-- Per-row body of source `rebuild_selection_bg_spans`: the span start is
the selection start column on the first row and 0 after, the span end is
the selection end column + 1 (u16 saturating) on the last row and the row
width (as u16, so mod 65536) otherwise; the end is clamped to the row
width and empty spans are skipped. -/
def selRowSpan (s e : Nat × Nat) (color : Rgb) (row : Nat) (line : GridLine) :
    Option BgSpan :=
  let colStart := if row = s.2 then s.1 else 0
  let colEnd := if row = e.2 then min (e.1 + 1) 65535 else line.cells.length % 65536
  if colEnd ≤ colStart then none
  else
    let clampedEnd := min colEnd (line.cells.length % 65536)
    if clampedEnd ≤ colStart then none
    else some ⟨colStart, row, clampedEnd - colStart, color⟩

/-- Row loop of source `rebuild_selection_bg_spans`: iterate the selected
rows in order, break at the first row beyond the grid. -/
def selSpanRows (grid : List GridLine) (s e : Nat × Nat) (color : Rgb) :
    List Nat → List BgSpan
  | [] => []
  | row :: rest =>
      match grid.get? row with
      | none => []
      | some line =>
          match selRowSpan s e color row line with
          | none => selSpanRows grid s e color rest
          | some span => span :: selSpanRows grid s e color rest

/-- Source `rebuild_selection_bg_spans`: empty for no selection, otherwise
one clamped span per selected row from start.row through end.row. -/
def rebuildSelectionBgSpans (grid : List GridLine)
    (selection : Option ((Nat × Nat) × (Nat × Nat))) (selection_bg : Rgb) :
    List BgSpan :=
  match selection with
  | none => []
  | some (s, e) => selSpanRows grid s e selection_bg (List.range' s.2 (e.2 + 1 - s.2))

/-! ## Selection latch in set_pane_content -/

/-- The slice of the source PaneBuffer state the selection latch reads and
writes: the selection span list, the latched selection and selection bg,
plus a rebuild counter (the observable the spec's idempotence scenario
names).  No other statement of set_pane_content touches these fields. -/
structure SelState : Type where
  selection_bg_spans : List BgSpan
  last_selection : Option ((Nat × Nat) × (Nat × Nat))
  last_selection_bg : Rgb
  rebuildCount : Nat
deriving DecidableEq, Repr

/-- Source `set_pane_content`, selection tail: when the selection or its bg
differs from the latched values, rebuild the spans, latch both, and count
one rebuild; otherwise leave the state untouched. -/
def setPaneContentSelection (st : SelState) (grid : List GridLine)
    (selection : Option ((Nat × Nat) × (Nat × Nat))) (selection_bg : Rgb) : SelState :=
  if st.last_selection ≠ selection ∨ st.last_selection_bg ≠ selection_bg then
    { selection_bg_spans := rebuildSelectionBgSpans grid selection selection_bg,
      last_selection := selection,
      last_selection_bg := selection_bg,
      rebuildCount := st.rebuildCount + 1 }
  else st

/-! ## SPSC ring buffer (crates/pterminal-core/src/terminal/spsc.rs) -/

def U64 : Nat := 2 ^ 64

/-- 64-bit wrapping subtraction, usize wrapping_sub on the counters. -/
def wrappingSub (a b : Nat) : Nat :=
  ((a % U64) + U64 - (b % U64)) % U64

/-- Result of `Producer::try_push` (Rust Result<(), T>: Ok or the value
handed back). -/
inductive PushResult (α : Type) : Type
  | ok
  | err (value : α)
deriving DecidableEq, Repr

/-- Source struct `Inner`: slot array (MaybeUninit as Option), mask,
capacity, the two monotonic 64-bit counters and the closed flags. -/
structure SpscRing (α : Type) : Type where
  buf : List (Option α)
  mask : Nat
  capacity : Nat
  head : Nat
  tail : Nat
  producerClosed : Bool
  consumerClosed : Bool

/-- Source `Inner::new`: capacity raised to at least one and rounded up to
a power of two; mask = capacity - 1. -/
def SpscRing.new (α : Type) (capacity : Nat) : SpscRing α :=
  let cap := Nat.nextPowerOfTwo (max capacity 1)
  ⟨List.replicate cap none, cap - 1, cap, 0, 0, false, false⟩

/-- Source `Producer::try_push`: fail (returning the value) when the
consumer side is closed or when the wrapped occupancy head - tail has
reached capacity; otherwise write the slot at head AND mask and publish
head + 1 (wrapping). -/
def tryPush {α : Type} (r : SpscRing α) (v : α) : SpscRing α × PushResult α :=
  if r.consumerClosed then (r, PushResult.err v)
  else if r.capacity ≤ wrappingSub r.head r.tail then (r, PushResult.err v)
  else
    let r' :=
      { r with buf := r.buf.set (r.head &&& r.mask) (some v), head := (r.head + 1) % U64 }
    (r', PushResult.ok)

/-! ## Theorems -/

example : (SplitTree.new 1).layout = [(1, ⟨0, 0, 1, 1⟩)] := by
  simp [SplitTree.new, SplitTree.layout, layoutNode]

example :
    ((SplitTree.new 1).split 1 SplitDirection.horizontal 2).layout =
      [(1, ⟨0, 0, 1/2, 1⟩), (2, ⟨1/2, 0, 1/2, 1⟩)] := by
  norm_num [SplitTree.new, SplitTree.split, splitNode, SplitTree.layout, layoutNode]

example : (((SplitTree.new 1).split 1 SplitDirection.horizontal 2).remove 2).1 =
    SplitTree.new 1 := by
  norm_num +decide [SplitTree.new, SplitTree.split, splitNode, SplitTree.remove, removeNode]

example : ((SplitTree.new 1).remove 1).2 = false := by
  simp [SplitTree.new, SplitTree.remove]

example :
    (((SplitTree.new 1).split 1 SplitDirection.horizontal 2).adjustRatio 1 (1/10)).root =
      SplitNode.split SplitDirection.horizontal (3/5) (SplitNode.leaf 1) (SplitNode.leaf 2) := by
  norm_num [SplitTree.new, SplitTree.split, splitNode, SplitTree.adjustRatio, adjustRatioNode,
    nodeContains, clampRatio]

theorem mem_collectIds_iff {n : SplitNode} {p : PaneId} :
    p ∈ collectIds n ↔ nodeContains n p = true := by
  induction n with
  | leaf id => simp [collectIds, nodeContains, eq_comm]
  | split d r f s ihf ihs => simp [collectIds, nodeContains, ihf, ihs]

theorem splitNode_snd (n : SplitNode) (target : PaneId) (direction : SplitDirection)
    (newPane : PaneId) : (splitNode n target direction newPane).2 = nodeContains n target := by
  induction n with
  | leaf id => by_cases h : id = target <;> simp [splitNode, nodeContains, h]
  | split d r f s ihf ihs =>
    rcases hf : splitNode f target direction newPane with ⟨f', bf⟩
    rcases hs : splitNode s target direction newPane with ⟨s', bs⟩
    cases bf <;>
      simp_all [splitNode, nodeContains, hf, hs]

theorem splitNode_of_not_contains {n : SplitNode} {target : PaneId}
    {direction : SplitDirection} {newPane : PaneId} (h : nodeContains n target = false) :
    (splitNode n target direction newPane).1 = n := by
  induction n with
  | leaf id =>
    simp only [nodeContains, decide_eq_false_iff_not] at h
    simp [splitNode, h]
  | split d r f s ihf ihs =>
    simp only [nodeContains, Bool.or_eq_false_iff] at h
    rcases hf : splitNode f target direction newPane with ⟨f', bf⟩
    have hbf : bf = false := by
      have := splitNode_snd f target direction newPane
      rw [hf] at this
      have hb : bf = nodeContains f target := this
      rw [hb]
      exact h.1
    subst hbf
    rcases hs : splitNode s target direction newPane with ⟨s', bs⟩
    have h1 : f' = f := by have := ihf h.1; rwa [hf] at this
    have h2 : s' = s := by have := ihs h.2; rwa [hs] at this
    simp [splitNode, hf, hs, h1, h2]

theorem ratiosOK_splitNode {n : SplitNode} (target : PaneId) (direction : SplitDirection)
    (newPane : PaneId) (h : ratiosOK n = true) :
    ratiosOK (splitNode n target direction newPane).1 = true := by
  induction n with
  | leaf id =>
    by_cases hid : id = target <;> simp [splitNode, hid, ratiosOK] <;> norm_num
  | split d r f s ihf ihs =>
    simp only [ratiosOK, Bool.and_eq_true] at h
    rcases hf : splitNode f target direction newPane with ⟨f', bf⟩
    have hf' : ratiosOK f' = true := by have := ihf h.1.2; rwa [hf] at this
    cases bf
    · rcases hs : splitNode s target direction newPane with ⟨s', bs⟩
      have hs' : ratiosOK s' = true := by have := ihs h.2; rwa [hs] at this
      simp [splitNode, hf, hs, ratiosOK, hf', hs', h.1.1]
    · simp [splitNode, hf, ratiosOK, hf', h.1.1, h.2]

theorem count_collectIds_splitNode {n : SplitNode} {target : PaneId}
    {direction : SplitDirection} {newPane : PaneId}
    (h : nodeContains n target = true) (a : PaneId) :
    (collectIds (splitNode n target direction newPane).1).count a =
      (collectIds n).count a + (if a = newPane then 1 else 0) := by
  induction n with
  | leaf id =>
    simp only [nodeContains, decide_eq_true_eq] at h
    subst h
    by_cases ha : a = newPane <;>
        simp [splitNode, collectIds, ha, List.count_cons, List.count_singleton] <;>
      omega
  | split d r f s ihf ihs =>
    rcases hf : splitNode f target direction newPane with ⟨f', bf⟩
    have hbf : bf = nodeContains f target := by
      have := splitNode_snd f target direction newPane
      rwa [hf] at this
    cases hcf : nodeContains f target with
    | true =>
      rw [hcf] at hbf; subst hbf
      have ihf' := ihf hcf
      rw [hf] at ihf'
      simp [splitNode, hf, collectIds, List.count_append, ihf']
      omega
    | false =>
      rw [hcf] at hbf; subst hbf
      have hcs : nodeContains s target = true := by
        simp only [nodeContains, hcf, Bool.false_or] at h; exact h
      have hfeq : f' = f := by
        have : (splitNode f target direction newPane).1 = f :=
          splitNode_of_not_contains hcf
        rwa [hf] at this
      subst hfeq
      rcases hs : splitNode s target direction newPane with ⟨s', bs⟩
      have ihs' := ihs hcs
      rw [hs] at ihs'
      simp [splitNode, hf, hs, collectIds, List.count_append, ihs']
      omega

theorem nodup_splitNode {n : SplitNode} {target : PaneId} {direction : SplitDirection}
    {newPane : PaneId} (hnd : (collectIds n).Nodup)
    (hfresh : nodeContains n newPane = false) :
    (collectIds (splitNode n target direction newPane).1).Nodup := by
  cases hct : nodeContains n target with
  | false =>
    rw [splitNode_of_not_contains hct]; exact hnd
  | true =>
    rw [List.nodup_iff_count_le_one] at hnd ⊢
    intro a
    rw [count_collectIds_splitNode hct a]
    by_cases ha : a = newPane
    · subst ha
      have hmem : a ∉ collectIds n := fun hmem => by
        rw [mem_collectIds_iff] at hmem; simp_all
      rw [List.count_eq_zero_of_not_mem hmem]
      simp
    · simp [ha]
      exact hnd a

theorem nodeContains_splitNode_of_contains {n : SplitNode} {target : PaneId}
    {direction : SplitDirection} {newPane : PaneId} {a : PaneId}
    (h : nodeContains n a = true) :
    nodeContains (splitNode n target direction newPane).1 a = true := by
  induction n with
  | leaf id =>
    by_cases hid : id = target <;> simp_all [splitNode, nodeContains]
  | split d r f s ihf ihs =>
    rcases hf : splitNode f target direction newPane with ⟨f', bf⟩
    rcases hs : splitNode s target direction newPane with ⟨s', bs⟩
    simp only [nodeContains, Bool.or_eq_true] at h
    cases bf
    · rcases h with h | h
      · have := ihf h; rw [hf] at this; simp [splitNode, hf, hs, nodeContains, this]
      · have := ihs h; rw [hs] at this; simp [splitNode, hf, hs, nodeContains, this]
    · rcases h with h | h
      · have := ihf h; rw [hf] at this; simp [splitNode, hf, nodeContains, this]
      · simp [splitNode, hf, nodeContains, h]

theorem removeNode_eq_spec (n : SplitNode) (p : PaneId) :
    removeNode n p = match removeLeafSpec n p with
      | some m => (m, true)
      | none => (n, false) := by
  induction n with
  | leaf id => simp [removeNode, removeLeafSpec]
  | split d r f s ihf ihs =>
    by_cases h1 : f = SplitNode.leaf p
    · simp [removeNode, removeLeafSpec, h1]
    · by_cases h2 : s = SplitNode.leaf p
      · simp [removeNode, removeLeafSpec, h1, h2]
      · cases hf : removeLeafSpec f p with
        | some f1 =>
          have hrf : removeNode f p = (f1, true) := by rw [ihf, hf]
          simp [removeNode, removeLeafSpec, h1, h2, hf, hrf]
        | none =>
          have hrf : removeNode f p = (f, false) := by rw [ihf, hf]
          cases hs : removeLeafSpec s p with
          | some s1 =>
            have hrs : removeNode s p = (s1, true) := by rw [ihs, hs]
            simp [removeNode, removeLeafSpec, h1, h2, hf, hs, hrf, hrs]
          | none =>
            have hrs : removeNode s p = (s, false) := by rw [ihs, hs]
            simp [removeNode, removeLeafSpec, h1, h2, hf, hs, hrf, hrs]

theorem removeNode_snd_false {n : SplitNode} {p : PaneId}
    (h : (removeNode n p).2 = false) : (removeNode n p).1 = n := by
  have hsp := removeNode_eq_spec n p
  cases hs : removeLeafSpec n p with
  | none => rw [hs] at hsp; simp [hsp]
  | some m => rw [hs] at hsp; rw [hsp] at h; simp at h

theorem removeLeafSpec_none_of_not_contains {n : SplitNode} {p : PaneId}
    (h : nodeContains n p = false) : removeLeafSpec n p = none := by
  induction n with
  | leaf id => simp [removeLeafSpec]
  | split d r f s ihf ihs =>
    simp only [nodeContains, Bool.or_eq_false_iff] at h
    have h1 : f ≠ SplitNode.leaf p := by
      intro he; subst he; simp [nodeContains] at h
    have h2 : s ≠ SplitNode.leaf p := by
      intro he; subst he; simp [nodeContains] at h
    simp [removeLeafSpec, h1, h2, ihf h.1, ihs h.2]

theorem removeLeafSpec_isSome_of_contains {n : SplitNode} {p : PaneId}
    (h : nodeContains n p = true) (hn : ∀ id, n ≠ SplitNode.leaf id) :
    (removeLeafSpec n p).isSome = true := by
  induction n with
  | leaf id => exact absurd rfl (hn id)
  | split d r f s ihf ihs =>
    by_cases h1 : f = SplitNode.leaf p
    · simp [removeLeafSpec, h1]
    · by_cases h2 : s = SplitNode.leaf p
      · simp [removeLeafSpec, h1, h2]
      · simp only [nodeContains, Bool.or_eq_true] at h
        rcases h with h | h
        · have hfs : ∀ id, f ≠ SplitNode.leaf id := by
            intro id he
            subst he
            simp only [nodeContains, decide_eq_true_eq] at h
            exact h1 (by rw [h])
          have := ihf h hfs
          cases hf : removeLeafSpec f p with
          | some f1 => simp [removeLeafSpec, h1, h2, hf]
          | none => rw [hf] at this; simp at this
        · by_cases hcf : nodeContains f p = true
          · have hfs : ∀ id, f ≠ SplitNode.leaf id := by
              intro id he
              subst he
              simp only [nodeContains, decide_eq_true_eq] at hcf
              exact h1 (by rw [hcf])
            have := ihf hcf hfs
            cases hf : removeLeafSpec f p with
            | some f1 => simp [removeLeafSpec, h1, h2, hf]
            | none => rw [hf] at this; simp at this
          · have hss : ∀ id, s ≠ SplitNode.leaf id := by
              intro id he
              subst he
              simp only [nodeContains, decide_eq_true_eq] at h
              exact h2 (by rw [h])
            have hspec := ihs h hss
            have hfn : removeLeafSpec f p = none :=
              removeLeafSpec_none_of_not_contains (by simpa using hcf)
            cases hs : removeLeafSpec s p with
            | some s1 => simp [removeLeafSpec, h1, h2, hfn, hs]
            | none => rw [hs] at hspec; simp at hspec

theorem collectIds_removeLeafSpec {n m : SplitNode} {p : PaneId}
    (h : removeLeafSpec n p = some m) :
    (collectIds m).Sublist (collectIds n) := by
  induction n generalizing m with
  | leaf id => simp [removeLeafSpec] at h
  | split d r f s ihf ihs =>
    by_cases h1 : f = SplitNode.leaf p
    · rw [removeLeafSpec, if_pos h1] at h
      cases h
      simpa [collectIds] using List.sublist_append_right (collectIds f) (collectIds s)
    · by_cases h2 : s = SplitNode.leaf p
      · rw [removeLeafSpec, if_neg h1, if_pos h2] at h
        cases h
        simpa [collectIds] using List.sublist_append_left (collectIds f) (collectIds s)
      · rw [removeLeafSpec, if_neg h1, if_neg h2] at h
        cases hf : removeLeafSpec f p with
        | some f1 =>
          rw [hf] at h
          cases h
          simpa [collectIds] using List.Sublist.append_right (ihf hf) (collectIds s)
        | none =>
          rw [hf] at h
          cases hs : removeLeafSpec s p with
          | some s1 =>
            rw [hs] at h
            cases h
            simpa [collectIds] using List.Sublist.append_left (ihs hs) (collectIds f)
          | none => rw [hs] at h; cases h

theorem mem_collectIds_removeLeafSpec {n m : SplitNode} {p a : PaneId}
    (h : removeLeafSpec n p = some m) (ha : a ∈ collectIds n) (hne : a ≠ p) :
    a ∈ collectIds m := by
  induction n generalizing m with
  | leaf id => simp [removeLeafSpec] at h
  | split d r f s ihf ihs =>
    by_cases h1 : f = SplitNode.leaf p
    · rw [removeLeafSpec, if_pos h1] at h
      cases h
      subst h1
      simp only [collectIds, List.mem_append, List.mem_singleton] at ha
      rcases ha with ha | ha
      · exact absurd ha hne
      · exact ha
    · by_cases h2 : s = SplitNode.leaf p
      · rw [removeLeafSpec, if_neg h1, if_pos h2] at h
        cases h
        subst h2
        simp only [collectIds, List.mem_append, List.mem_singleton] at ha
        rcases ha with ha | ha
        · exact ha
        · exact absurd ha hne
      · rw [removeLeafSpec, if_neg h1, if_neg h2] at h
        simp only [collectIds, List.mem_append] at ha
        cases hf : removeLeafSpec f p with
        | some f1 =>
          rw [hf] at h
          cases h
          simp only [collectIds, List.mem_append]
          rcases ha with ha | ha
          · exact Or.inl (ihf hf ha)
          · exact Or.inr ha
        | none =>
          rw [hf] at h
          cases hs : removeLeafSpec s p with
          | some s1 =>
            rw [hs] at h
            cases h
            simp only [collectIds, List.mem_append]
            rcases ha with ha | ha
            · exact Or.inl ha
            · exact Or.inr (ihs hs ha)
          | none => rw [hs] at h; cases h

theorem nodeContains_removeNode_of_ne {n : SplitNode} {p a : PaneId}
    (hne : a ≠ p) (h : nodeContains n a = true) :
    nodeContains (removeNode n p).1 a = true := by
  have hsp := removeNode_eq_spec n p
  cases hs : removeLeafSpec n p with
  | none => rw [hs] at hsp; simp [hsp, h]
  | some m =>
    rw [hs] at hsp
    rw [hsp]
    rw [← mem_collectIds_iff] at h ⊢
    exact mem_collectIds_removeLeafSpec hs h hne

theorem ratiosOK_removeLeafSpec {n m : SplitNode} {p : PaneId}
    (h : removeLeafSpec n p = some m) (hr : ratiosOK n = true) : ratiosOK m = true := by
  induction n generalizing m with
  | leaf id => simp [removeLeafSpec] at h
  | split d r f s ihf ihs =>
    simp only [ratiosOK, Bool.and_eq_true] at hr
    by_cases h1 : f = SplitNode.leaf p
    · rw [removeLeafSpec, if_pos h1] at h; cases h; exact hr.2
    · by_cases h2 : s = SplitNode.leaf p
      · rw [removeLeafSpec, if_neg h1, if_pos h2] at h; cases h; exact hr.1.2
      · rw [removeLeafSpec, if_neg h1, if_neg h2] at h
        cases hf : removeLeafSpec f p with
        | some f1 =>
          rw [hf] at h
          cases h
          simp [ratiosOK, ihf hf hr.1.2, hr.2, hr.1.1.1, hr.1.1.2]
        | none =>
          rw [hf] at h
          cases hs : removeLeafSpec s p with
          | some s1 =>
            rw [hs] at h
            cases h
            simp [ratiosOK, ihs hs hr.2, hr.1.2, hr.1.1.1, hr.1.1.2]
          | none => rw [hs] at h; cases h

theorem collectIds_adjustRatioNode (n : SplitNode) (p : PaneId) (delta : ℚ) :
    collectIds (adjustRatioNode n p delta).1 = collectIds n := by
  induction n with
  | leaf id => simp [adjustRatioNode]
  | split d r f s ihf ihs =>
    by_cases h1 : nodeContains f p = true
    · rcases hf : adjustRatioNode f p delta with ⟨f', bf⟩
      have hids : collectIds f' = collectIds f := by
        have := ihf; rwa [hf] at this
      cases bf <;> simp [adjustRatioNode, h1, hf, collectIds, hids]
    · by_cases h2 : nodeContains s p = true
      · rcases hs : adjustRatioNode s p delta with ⟨s', bs⟩
        have hids : collectIds s' = collectIds s := by
          have := ihs; rwa [hs] at this
        cases bs <;> simp [adjustRatioNode, h1, h2, hs, collectIds, hids]
      · simp [adjustRatioNode, h1, h2]

theorem adjustRatioNode_not_contains {n : SplitNode} {p : PaneId} {delta : ℚ}
    (h : nodeContains n p = false) : adjustRatioNode n p delta = (n, false) := by
  induction n with
  | leaf id => simp [adjustRatioNode]
  | split d r f s ihf ihs =>
    simp only [nodeContains, Bool.or_eq_false_iff] at h
    simp [adjustRatioNode, h.1, h.2]

theorem adjustRatioNode_snd_true {n : SplitNode} {p : PaneId} (delta : ℚ)
    (h : nodeContains n p = true) (hn : ∀ id, n ≠ SplitNode.leaf id) :
    (adjustRatioNode n p delta).2 = true := by
  cases n with
  | leaf id => exact absurd rfl (hn id)
  | split d r f s =>
    simp only [nodeContains, Bool.or_eq_true] at h
    by_cases h1 : nodeContains f p = true
    · rcases hf : adjustRatioNode f p delta with ⟨f', bf⟩
      cases bf <;> simp [adjustRatioNode, h1, hf]
    · have h2 : nodeContains s p = true := by
        rcases h with h | h
        · exact absurd h h1
        · exact h
      rcases hs : adjustRatioNode s p delta with ⟨s', bs⟩
      cases bs <;> simp [adjustRatioNode, h1, h2, hs]

theorem adjustRatioNode_eq_updateParentRatio {n : SplitNode} (p : PaneId) (delta : ℚ)
    (hnd : (collectIds n).Nodup) :
    (adjustRatioNode n p delta).1 = updateParentRatio n p delta := by
  induction n with
  | leaf id => simp [adjustRatioNode, updateParentRatio]
  | split d r f s ihf ihs =>
    rw [collectIds, List.nodup_append] at hnd
    obtain ⟨hndf, hnds, hdisj⟩ := hnd
    by_cases h1 : nodeContains f p = true
    · have hps : nodeContains s p = false := by
        by_contra hc
        rw [Bool.not_eq_false] at hc
        exact hdisj (mem_collectIds_iff.mpr h1) (mem_collectIds_iff.mpr hc)
      have hs_ne : s ≠ SplitNode.leaf p := by
        intro he
        subst he
        simp [nodeContains] at hps
      by_cases hfl : f = SplitNode.leaf p
      · subst hfl
        simp [adjustRatioNode, nodeContains, updateParentRatio]
      · have hfl' : ∀ id, f ≠ SplitNode.leaf id := by
          intro id he
          subst he
          simp only [nodeContains, decide_eq_true_eq] at h1
          exact hfl (by rw [h1])
        have hbf := adjustRatioNode_snd_true delta h1 hfl'
        rcases hf : adjustRatioNode f p delta with ⟨f', bf⟩
        rw [hf] at hbf
        have hbf' : bf = true := hbf
        subst hbf'
        have hf'eq : f' = updateParentRatio f p delta := by
          have := ihf hndf
          rwa [hf] at this
        have hcond : ¬(f = SplitNode.leaf p ∨ s = SplitNode.leaf p) := by
          rintro (hh | hh)
          · exact hfl hh
          · exact hs_ne hh
        simp [adjustRatioNode, h1, hf, updateParentRatio, hcond, hf'eq]
    · by_cases h2 : nodeContains s p = true
      · have hf_ne : f ≠ SplitNode.leaf p := by
          intro he
          subst he
          simp [nodeContains] at h1
        by_cases hsl : s = SplitNode.leaf p
        · subst hsl
          simp [adjustRatioNode, nodeContains, updateParentRatio, h1]
        · have hsl' : ∀ id, s ≠ SplitNode.leaf id := by
            intro id he
            subst he
            simp only [nodeContains, decide_eq_true_eq] at h2
            exact hsl (by rw [h2])
          have hbs := adjustRatioNode_snd_true delta h2 hsl'
          rcases hs : adjustRatioNode s p delta with ⟨s', bs⟩
          rw [hs] at hbs
          have hbs' : bs = true := hbs
          subst hbs'
          have hs'eq : s' = updateParentRatio s p delta := by
            have := ihs hnds
            rwa [hs] at this
          have hcond : ¬(f = SplitNode.leaf p ∨ s = SplitNode.leaf p) := by
            rintro (hh | hh)
            · exact hf_ne hh
            · exact hsl hh
          simp [adjustRatioNode, h1, h2, hs, updateParentRatio, hcond, hs'eq]
      · have hcond : ¬(f = SplitNode.leaf p ∨ s = SplitNode.leaf p) := by
          rintro (hh | hh)
          · subst hh; simp [nodeContains] at h1
          · subst hh; simp [nodeContains] at h2
        simp [adjustRatioNode, h1, h2, updateParentRatio, hcond]

theorem treeInv_new (p : PaneId) : TreeInv (SplitTree.new p) := by
  constructor <;> simp [SplitTree.new, ratiosOK, SplitTree.paneIds, collectIds]

theorem treeInv_remove {t : SplitTree} (h : TreeInv t) (p : PaneId) :
    TreeInv (t.remove p).1 := by
  rw [SplitTree.remove]
  by_cases hroot : t.root = SplitNode.leaf p
  · rw [if_pos hroot]; exact h
  · rw [if_neg hroot]
    have hsp := removeNode_eq_spec t.root p
    cases hs : removeLeafSpec t.root p with
    | none =>
      rw [hs] at hsp
      simp only [hsp]
      exact h
    | some m =>
      rw [hs] at hsp
      simp only [hsp]
      exact ⟨ratiosOK_removeLeafSpec hs h.1, (collectIds_removeLeafSpec hs).nodup h.2⟩

theorem treeInv_applyOp {t : SplitTree} {op : TreeOp} (h : TreeInv t)
    (hf : (match op with
           | TreeOp.split _ _ newPane => !(t.contains newPane)
           | TreeOp.remove _ => true) = true) : TreeInv (applyOp t op) := by
  cases op with
  | split target direction newPane =>
    simp only [Bool.not_eq_true'] at hf
    exact ⟨ratiosOK_splitNode target direction newPane h.1, nodup_splitNode h.2 hf⟩
  | remove pane => exact treeInv_remove h pane

theorem treeInv_applyOps {t : SplitTree} {ops : List TreeOp} (h : TreeInv t)
    (hf : freshOps t ops = true) : TreeInv (applyOps t ops) := by
  induction ops generalizing t with
  | nil => exact h
  | cons op ops ih =>
    rw [freshOps.eq_def, Bool.and_eq_true] at hf
    exact ih (treeInv_applyOp h hf.1) hf.2

theorem rectContains_iff {r : PaneRect} {px py : ℚ} :
    rectContains r px py = true ↔
      r.x ≤ px ∧ px < r.x + r.width ∧ r.y ≤ py ∧ py < r.y + r.height := by
  simp [rectContains]

theorem rectContains_mk_iff {x y w h px py : ℚ} :
    rectContains ⟨x, y, w, h⟩ px py = true ↔
      x ≤ px ∧ px < x + w ∧ y ≤ py ∧ py < y + h := by
  simp [rectContains]

theorem layoutNode_map_fst (n : SplitNode) (rect : PaneRect) :
    (layoutNode n rect).map Prod.fst = collectIds n := by
  induction n generalizing rect with
  | leaf id => simp [layoutNode, collectIds]
  | split d r f s ihf ihs =>
    cases d <;> simp [layoutNode, collectIds, ihf, ihs]

theorem layoutNode_bounds {n : SplitNode} (hr : ratiosOK n = true) :
    ∀ rect : PaneRect, 0 < rect.width → 0 < rect.height →
      ∀ e ∈ layoutNode n rect,
        0 < e.2.width ∧ 0 < e.2.height ∧
        rect.x ≤ e.2.x ∧ e.2.x + e.2.width ≤ rect.x + rect.width ∧
        rect.y ≤ e.2.y ∧ e.2.y + e.2.height ≤ rect.y + rect.height := by
  induction n with
  | leaf id =>
    intro rect hw hh e he
    simp only [layoutNode, List.mem_singleton] at he
    subst he
    exact ⟨hw, hh, le_refl _, le_refl _, le_refl _, le_refl _⟩
  | split d r f s ihf ihs =>
    intro rect hw hh e he
    simp only [ratiosOK, Bool.and_eq_true, decide_eq_true_eq] at hr
    obtain ⟨⟨⟨hr0, hr1⟩, hrf⟩, hrs⟩ := hr
    cases d with
    | horizontal =>
      simp only [layoutNode, List.mem_append] at he
      have hw1 : 0 < rect.width * r := mul_pos hw hr0
      have hwlt : rect.width * r < rect.width := by nlinarith
      rcases he with he | he
      · obtain ⟨e1, e2, e3, e4, e5, e6⟩ :=
          ihf hrf ⟨rect.x, rect.y, rect.width * r, rect.height⟩ hw1 hh e he
        have e3' : rect.x ≤ e.2.x := e3
        have e4' : e.2.x + e.2.width ≤ rect.x + rect.width * r := e4
        exact ⟨e1, e2, e3', by linarith, e5, e6⟩
      · have hw2 : 0 < rect.width - rect.width * r := by linarith
        obtain ⟨e1, e2, e3, e4, e5, e6⟩ :=
          ihs hrs ⟨rect.x + rect.width * r, rect.y, rect.width - rect.width * r, rect.height⟩
            hw2 hh e he
        have e3' : rect.x + rect.width * r ≤ e.2.x := e3
        have e4' : e.2.x + e.2.width ≤ rect.x + rect.width * r + (rect.width - rect.width * r) :=
          e4
        exact ⟨e1, e2, by linarith, by linarith, e5, e6⟩
    | vertical =>
      simp only [layoutNode, List.mem_append] at he
      have hh1 : 0 < rect.height * r := mul_pos hh hr0
      have hhlt : rect.height * r < rect.height := by nlinarith
      rcases he with he | he
      · obtain ⟨e1, e2, e3, e4, e5, e6⟩ :=
          ihf hrf ⟨rect.x, rect.y, rect.width, rect.height * r⟩ hw hh1 e he
        have e5' : rect.y ≤ e.2.y := e5
        have e6' : e.2.y + e.2.height ≤ rect.y + rect.height * r := e6
        exact ⟨e1, e2, e3, e4, e5', by linarith⟩
      · have hh2 : 0 < rect.height - rect.height * r := by linarith
        obtain ⟨e1, e2, e3, e4, e5, e6⟩ :=
          ihs hrs ⟨rect.x, rect.y + rect.height * r, rect.width, rect.height - rect.height * r⟩
            hw hh2 e he
        have e5' : rect.y + rect.height * r ≤ e.2.y := e5
        have e6' : e.2.y + e.2.height ≤ rect.y + rect.height * r + (rect.height - rect.height * r) :=
          e6
        exact ⟨e1, e2, e3, e4, by linarith, by linarith⟩

theorem layoutNode_countP {n : SplitNode} (hr : ratiosOK n = true) :
    ∀ rect : PaneRect, 0 < rect.width → 0 < rect.height → ∀ px py : ℚ,
      (layoutNode n rect).countP (fun e => rectContains e.2 px py) =
        if rectContains rect px py = true then 1 else 0 := by
  induction n with
  | leaf id =>
    intro rect hw hh px py
    by_cases hc : rectContains rect px py = true <;>
      simp [layoutNode, List.countP_cons, hc]
  | split d r f s ihf ihs =>
    intro rect hw hh px py
    simp only [ratiosOK, Bool.and_eq_true, decide_eq_true_eq] at hr
    obtain ⟨⟨⟨hr0, hr1⟩, hrf⟩, hrs⟩ := hr
    cases d with
    | horizontal =>
      have hw1 : 0 < rect.width * r := mul_pos hw hr0
      have hwlt : rect.width * r < rect.width := by nlinarith
      have hw2 : 0 < rect.width - rect.width * r := by linarith
      simp only [layoutNode, List.countP_append]
      rw [ihf hrf ⟨rect.x, rect.y, rect.width * r, rect.height⟩ hw1 hh px py,
        ihs hrs ⟨rect.x + rect.width * r, rect.y, rect.width - rect.width * r, rect.height⟩
          hw2 hh px py]
      by_cases hA : rectContains ⟨rect.x, rect.y, rect.width * r, rect.height⟩ px py = true
      · have hA' := rectContains_mk_iff.mp hA
        have hB : ¬ rectContains
            ⟨rect.x + rect.width * r, rect.y, rect.width - rect.width * r, rect.height⟩
              px py = true := by
          rw [rectContains_mk_iff]
          intro hB
          linarith [hA'.2.1, hB.1]
        have hC : rectContains rect px py = true :=
          rectContains_iff.mpr ⟨hA'.1, by linarith [hA'.2.1], hA'.2.2.1, hA'.2.2.2⟩
        simp [hA, hB, hC]
      · by_cases hB : rectContains
            ⟨rect.x + rect.width * r, rect.y, rect.width - rect.width * r, rect.height⟩
              px py = true
        · have hB' := rectContains_mk_iff.mp hB
          have hC : rectContains rect px py = true :=
            rectContains_iff.mpr
              ⟨by linarith [hB'.1], by linarith [hB'.2.1], hB'.2.2.1, hB'.2.2.2⟩
          simp [hA, hB, hC]
        · have hC : ¬ rectContains rect px py = true := by
            rw [rectContains_mk_iff] at hA hB
            rw [rectContains_iff]
            intro hC
            rcases lt_or_le px (rect.x + rect.width * r) with hpx | hpx
            · exact hA ⟨hC.1, hpx, hC.2.2.1, hC.2.2.2⟩
            · exact hB ⟨hpx, by linarith [hC.2.1], hC.2.2.1, hC.2.2.2⟩
          simp [hA, hB, hC]
    | vertical =>
      have hh1 : 0 < rect.height * r := mul_pos hh hr0
      have hhlt : rect.height * r < rect.height := by nlinarith
      have hh2 : 0 < rect.height - rect.height * r := by linarith
      simp only [layoutNode, List.countP_append]
      rw [ihf hrf ⟨rect.x, rect.y, rect.width, rect.height * r⟩ hw hh1 px py,
        ihs hrs ⟨rect.x, rect.y + rect.height * r, rect.width, rect.height - rect.height * r⟩
          hw hh2 px py]
      by_cases hA : rectContains ⟨rect.x, rect.y, rect.width, rect.height * r⟩ px py = true
      · have hA' := rectContains_mk_iff.mp hA
        have hB : ¬ rectContains
            ⟨rect.x, rect.y + rect.height * r, rect.width, rect.height - rect.height * r⟩
              px py = true := by
          rw [rectContains_mk_iff]
          intro hB
          linarith [hA'.2.2.2, hB.2.2.1]
        have hC : rectContains rect px py = true :=
          rectContains_iff.mpr ⟨hA'.1, hA'.2.1, hA'.2.2.1, by linarith [hA'.2.2.2]⟩
        simp [hA, hB, hC]
      · by_cases hB : rectContains
            ⟨rect.x, rect.y + rect.height * r, rect.width, rect.height - rect.height * r⟩
              px py = true
        · have hB' := rectContains_mk_iff.mp hB
          have hC : rectContains rect px py = true :=
            rectContains_iff.mpr
              ⟨hB'.1, hB'.2.1, by linarith [hB'.2.2.1], by linarith [hB'.2.2.2]⟩
          simp [hA, hB, hC]
        · have hC : ¬ rectContains rect px py = true := by
            rw [rectContains_mk_iff] at hA hB
            rw [rectContains_iff]
            intro hC
            rcases lt_or_le py (rect.y + rect.height * r) with hpy | hpy
            · exact hA ⟨hC.1, hC.2.1, hC.2.2.1, hpy⟩
            · exact hB ⟨hC.1, hC.2.1, hpy, by linarith [hC.2.2.2]⟩
          simp [hA, hB, hC]

theorem layout_of_treeInv {t : SplitTree} (h : TreeInv t) :
    t.layout.map Prod.fst = t.paneIds ∧
    (t.layout.map Prod.fst).Nodup ∧
    (∀ e ∈ t.layout, 0 < e.2.width ∧ 0 < e.2.height ∧
      0 ≤ e.2.x ∧ e.2.x + e.2.width ≤ 1 ∧ 0 ≤ e.2.y ∧ e.2.y + e.2.height ≤ 1) ∧
    (∀ px py : ℚ, 0 ≤ px → px < 1 → 0 ≤ py → py < 1 →
      t.layout.countP (fun e => rectContains e.2 px py) = 1) := by
  refine ⟨layoutNode_map_fst t.root _, ?_, ?_, ?_⟩
  · rw [SplitTree.layout, layoutNode_map_fst]
    exact h.2
  · intro e he
    obtain ⟨e1, e2, e3, e4, e5, e6⟩ :=
      layoutNode_bounds h.1 ⟨0, 0, 1, 1⟩ zero_lt_one zero_lt_one e he
    have e3' : (0 : ℚ) ≤ e.2.x := e3
    have e4' : e.2.x + e.2.width ≤ 0 + 1 := e4
    have e5' : (0 : ℚ) ≤ e.2.y := e5
    have e6' : e.2.y + e.2.height ≤ 0 + 1 := e6
    exact ⟨e1, e2, e3', by linarith, e5', by linarith⟩
  · intro px py h1 h2 h3 h4
    rw [SplitTree.layout, layoutNode_countP h.1 ⟨0, 0, 1, 1⟩ zero_lt_one zero_lt_one px py,
      if_pos]
    exact rectContains_mk_iff.mpr ⟨h1, by linarith, h3, by linarith⟩

/-- C1: for a split tree reached from SplitTree.new by split and remove
operations whose splits insert a pane id not already in the tree, layout()
returns one entry per leaf (ids equal to the in-order leaf list and without
duplicates), every rect has strictly positive width and height and lies in
the unit square, and the half-open rects tile the unit square without
overlap: every point of [0,1) x [0,1) lies in exactly one returned rect. -/
theorem C1_layout_tiling (p0 : PaneId) (ops : List TreeOp)
    (hf : freshOps (SplitTree.new p0) ops = true) :
    ((applyOps (SplitTree.new p0) ops).layout.map Prod.fst
        = (applyOps (SplitTree.new p0) ops).paneIds) ∧
    ((applyOps (SplitTree.new p0) ops).layout.map Prod.fst).Nodup ∧
    (∀ e ∈ (applyOps (SplitTree.new p0) ops).layout,
      0 < e.2.width ∧ 0 < e.2.height ∧
      0 ≤ e.2.x ∧ e.2.x + e.2.width ≤ 1 ∧ 0 ≤ e.2.y ∧ e.2.y + e.2.height ≤ 1) ∧
    (∀ px py : ℚ, 0 ≤ px → px < 1 → 0 ≤ py → py < 1 →
      ((applyOps (SplitTree.new p0) ops).layout.countP
          (fun e => rectContains e.2 px py)) = 1) :=
  layout_of_treeInv (treeInv_applyOps (treeInv_new p0) hf)

/-- C1 counterexample: the claim quantifies over all split/remove sequences,
but a split that reuses an existing pane id (here splitting pane 1 with new
pane 1) produces a layout whose pane ids are not unique. -/
theorem C1_counterexample :
    ¬ (((applyOps (SplitTree.new 1)
          [TreeOp.split 1 SplitDirection.horizontal 1]).layout.map Prod.fst).Nodup) := by
  simp [applyOps, applyOp, SplitTree.split, splitNode, SplitTree.new, SplitTree.layout,
    layoutNode]

theorem C1_witness :
    ((applyOps (SplitTree.new 1) [TreeOp.split 1 SplitDirection.horizontal 2]).layout.countP
        (fun e => rectContains e.2 (1/4) (1/2))) = 1 :=
  (C1_layout_tiling 1 [TreeOp.split 1 SplitDirection.horizontal 2] (by decide)).2.2.2
    (1/4) (1/2) (by norm_num) (by norm_num) (by norm_num) (by norm_num)

/-- C5: adjust_ratio rewrites exactly the ratio of the closest ancestor
split that directly separates the pane from its sibling, to ratio + delta
clamped into [1/10, 9/10], leaving every other node unchanged (stated as
equality with the spec-side updateParentRatio rewrite); a tree that does not
contain the pane is unchanged. -/
theorem C5_adjust_ratio (t : SplitTree) (p : PaneId) (delta : ℚ)
    (hnd : t.paneIds.Nodup) :
    t.adjustRatio p delta = ⟨updateParentRatio t.root p delta⟩ ∧
    (t.contains p = false → t.adjustRatio p delta = t) ∧
    (∀ x : ℚ, 1/10 ≤ clampRatio x ∧ clampRatio x ≤ 9/10 ∧
      (1/10 ≤ x → x ≤ 9/10 → clampRatio x = x)) := by
  refine ⟨?_, ?_, ?_⟩
  · rw [SplitTree.adjustRatio, adjustRatioNode_eq_updateParentRatio p delta hnd]
  · intro hc
    rw [SplitTree.adjustRatio,
      adjustRatioNode_not_contains (show nodeContains t.root p = false from hc)]
  · intro x
    unfold clampRatio
    split_ifs with h1 h2
    · exact ⟨le_refl _, by norm_num, fun ha hb => by linarith⟩
    · exact ⟨by norm_num, le_refl _, fun ha hb => by linarith⟩
    · exact ⟨by linarith, by linarith, fun _ _ => rfl⟩

theorem C5_witness :
    (SplitTree.mk (SplitNode.split SplitDirection.horizontal (1/2)
        (SplitNode.leaf 1) (SplitNode.leaf 2))).adjustRatio 1 (1/10) =
      ⟨updateParentRatio (SplitNode.split SplitDirection.horizontal (1/2)
        (SplitNode.leaf 1) (SplitNode.leaf 2)) 1 (1/10)⟩ :=
  (C5_adjust_ratio _ 1 (1/10) (by decide)).1

/-- C6: remove on a tree whose root is the single leaf holding the pane
fails and leaves the tree unchanged, remove of an absent pane fails and
leaves the tree unchanged, and otherwise remove succeeds and the result is
the spec-side sibling promotion (the parent split of the pane's leaf is
replaced by the sibling subtree). -/
theorem C6_remove_semantics (t : SplitTree) (p : PaneId) :
    (t.root = SplitNode.leaf p → t.remove p = (t, false)) ∧
    (t.contains p = false → t.remove p = (t, false)) ∧
    (t.contains p = true → t.root ≠ SplitNode.leaf p →
      (t.remove p).2 = true ∧ removeLeafSpec t.root p = some (t.remove p).1.root) := by
  refine ⟨?_, ?_, ?_⟩
  · intro h
    rw [SplitTree.remove, if_pos h]
  · intro hc
    have hroot : t.root ≠ SplitNode.leaf p := by
      intro he
      have : nodeContains t.root p = false := hc
      rw [he] at this
      simp [nodeContains] at this
    rw [SplitTree.remove, if_neg hroot]
    have hsp := removeNode_eq_spec t.root p
    rw [removeLeafSpec_none_of_not_contains (show nodeContains t.root p = false from hc)]
      at hsp
    simp only [hsp]
  · intro hc hroot
    have hn : ∀ id, t.root ≠ SplitNode.leaf id := by
      intro id he
      have hcc : nodeContains t.root p = true := hc
      rw [he] at hcc
      simp only [nodeContains, decide_eq_true_eq] at hcc
      exact hroot (by rw [he, hcc])
    have hsome := removeLeafSpec_isSome_of_contains (show nodeContains t.root p = true from hc) hn
    cases hs : removeLeafSpec t.root p with
    | none => rw [hs] at hsome; simp at hsome
    | some m =>
      have hsp := removeNode_eq_spec t.root p
      rw [hs] at hsp
      have hsp' : removeNode t.root p = (m, true) := hsp
      rw [SplitTree.remove, if_neg hroot]
      simp only [hsp']
      exact ⟨trivial, trivial⟩

theorem C6_witness :
    ((SplitTree.mk (SplitNode.split SplitDirection.horizontal (1/2)
        (SplitNode.leaf 1) (SplitNode.leaf 2))).remove 2).2 = true :=
  ((C6_remove_semantics _ 2).2.2 (by decide) (by decide)).1

theorem wsInv_new (id : Nat) (p : PaneId) : WsInv (Workspace.new id p) := by
  simp [WsInv, Workspace.new, SplitTree.new, SplitTree.contains, nodeContains]

theorem wsInv_applyWsOp {w : Workspace} {op : WsOp} (h : WsInv w)
    (hs : (match op with
           | WsOp.remove pane => decide (pane ≠ w.active_pane)
           | _ => true) = true) : WsInv (applyWsOp w op) := by
  cases op with
  | setActive id =>
    show WsInv (w.setActivePane id)
    rw [Workspace.setActivePane]
    by_cases hc : w.split_tree.contains id = true
    · rw [if_pos hc]; exact hc
    · rw [if_neg hc]; exact h
  | split target direction newPane =>
    exact nodeContains_splitNode_of_contains h
  | remove pane =>
    have hne : w.active_pane ≠ pane := by
      simp only [decide_eq_true_eq] at hs
      exact fun he => hs he.symm
    show (w.split_tree.remove pane).1.contains w.active_pane = true
    rw [SplitTree.remove]
    by_cases hroot : w.split_tree.root = SplitNode.leaf pane
    · rw [if_pos hroot]; exact h
    · rw [if_neg hroot]
      rcases hr : removeNode w.split_tree.root pane with ⟨n, b⟩
      have hcn : nodeContains n w.active_pane = true := by
        have := nodeContains_removeNode_of_ne hne h
        rwa [hr] at this
      simpa [SplitTree.contains] using hcn
  | adjustRatio pane delta =>
    show nodeContains (adjustRatioNode w.split_tree.root pane delta).1 w.active_pane = true
    rw [← mem_collectIds_iff, collectIds_adjustRatioNode]
    exact mem_collectIds_iff.mpr h

theorem wsInv_applyWsOps {w : Workspace} {ops : List WsOp} (h : WsInv w)
    (hs : safeOps w ops = true) : WsInv (applyWsOps w ops) := by
  induction ops generalizing w with
  | nil => exact h
  | cons op ops ih =>
    rw [safeOps.eq_def, Bool.and_eq_true] at hs
    exact ih (wsInv_applyWsOp h hs.1) hs.2

/-- C9 counterexample: the pane-removal operation reachable through the
public split_tree field (exactly what the UI's dead-pane reaper performs)
can remove the leaf holding active_pane, leaving active_pane pointing at a
pane that is not in the tree — so the claimed invariant fails for
unrestricted operation sequences. -/
theorem C9_counterexample :
    ((applyWsOps (Workspace.new 0 1)
        [WsOp.split 1 SplitDirection.horizontal 2, WsOp.remove 1]).split_tree.contains
      (applyWsOps (Workspace.new 0 1)
        [WsOp.split 1 SplitDirection.horizontal 2, WsOp.remove 1]).active_pane) = false := by
  decide

/-- C9 amended: for every sequence of workspace operations in which no
remove targets the currently active pane, active_pane is always a leaf of
split_tree; and set_active_pane with an id not present in the tree leaves
the workspace unchanged. -/
theorem C9_active_pane_invariant (id0 : Nat) (p0 : PaneId) (ops : List WsOp)
    (hs : safeOps (Workspace.new id0 p0) ops = true) :
    ((applyWsOps (Workspace.new id0 p0) ops).split_tree.contains
        (applyWsOps (Workspace.new id0 p0) ops).active_pane = true) ∧
    (∀ w : Workspace, ∀ pane : PaneId, w.split_tree.contains pane = false →
        w.setActivePane pane = w) :=
  ⟨wsInv_applyWsOps (wsInv_new id0 p0) hs,
   fun w pane hc => by rw [Workspace.setActivePane, if_neg (by simp [hc])]⟩

theorem C9_witness :
    ((applyWsOps (Workspace.new 0 1)
        [WsOp.split 1 SplitDirection.horizontal 2, WsOp.setActive 2,
         WsOp.remove 1]).split_tree.contains
      (applyWsOps (Workspace.new 0 1)
        [WsOp.split 1 SplitDirection.horizontal 2, WsOp.setActive 2,
         WsOp.remove 1]).active_pane = true) :=
  (C9_active_pane_invariant 0 1
    [WsOp.split 1 SplitDirection.horizontal 2, WsOp.setActive 2, WsOp.remove 1]
    (by decide)).1

theorem shapeChangedB_eq_false_iff {out : List GridLine} {numLines numCols : Nat} :
    shapeChangedB out numLines numCols = false ↔
      (out.length = numLines ∧ ∀ line ∈ out, line.cells.length = numCols) := by
  cases out with
  | nil => simp [shapeChangedB]
  | cons a rest =>
    cases rest with
    | nil => simp [shapeChangedB]
    | cons b rest2 =>
      simp only [shapeChangedB, List.head?_cons, Bool.or_eq_false_iff, Bool.and_eq_false_iff,
        decide_eq_false_iff_not, not_not, List.any_eq_false, List.length_cons, ne_eq,
        decide_eq_true_eq]
      constructor
      · rintro ⟨⟨h1, h2⟩, h3⟩
        refine ⟨h1, ?_⟩
        rcases h3 with h3 | h3
        · omega
        · exact h3
      · rintro ⟨h1, h2⟩
        exact ⟨⟨h1, h2 a (by simp)⟩, Or.inr h2⟩

theorem extractRow_length (t : Term) (i : Nat) :
    (extractRow t i).cells.length = t.columns := by
  simp [extractRow]

theorem rewriteRows_length (t : Term) (out : List GridLine) (rows : List Nat) :
    (rewriteRows t out rows).length = out.length := by
  induction rows generalizing out with
  | nil => rfl
  | cons i rest ih =>
    rw [rewriteRows]
    by_cases hi : i < out.length
    · rw [if_pos hi, ih]
      simp
    · rw [if_neg hi, ih]

theorem rewriteRows_cells (t : Term) (out : List GridLine) (rows : List Nat)
    (h : ∀ line ∈ out, line.cells.length = t.columns) :
    ∀ line ∈ rewriteRows t out rows, line.cells.length = t.columns := by
  induction rows generalizing out with
  | nil => exact h
  | cons i rest ih =>
    rw [rewriteRows]
    by_cases hi : i < out.length
    · rw [if_pos hi]
      refine ih _ ?_
      intro line hline
      rcases List.mem_or_eq_of_mem_set hline with hmem | heq
      · exact h line hmem
      · rw [heq]; exact extractRow_length t i
    · rw [if_neg hi]
      exact ih _ h

theorem extractGridDelta_term (t : Term) (out : List GridLine) :
    (extractGridDelta t out).2.2 = t.resetDamage := by
  rw [extractGridDelta]
  split <;> split <;> rfl

theorem mapExtractRow_shape (t : Term) :
    ((List.range t.screenLines).map (extractRow t)).length = t.screenLines ∧
      ∀ line ∈ (List.range t.screenLines).map (extractRow t),
        line.cells.length = t.columns := by
  constructor
  · simp
  · intro line hline
    simp only [List.mem_map, List.mem_range] at hline
    obtain ⟨i, _, hi⟩ := hline
    rw [← hi]
    exact extractRow_length t i

theorem extractGridDelta_cache_shape (t : Term) (out : List GridLine) :
    (extractGridDelta t out).2.1.length = t.screenLines ∧
      ∀ line ∈ (extractGridDelta t out).2.1, line.cells.length = t.columns := by
  rw [extractGridDelta]
  split
  · split
    · exact mapExtractRow_shape t
    · rename_i hfull
      exact absurd rfl hfull
  · rename_i hshape
    split
    · exact mapExtractRow_shape t
    · have hs : shapeChangedB out t.screenLines t.columns = false :=
        Bool.not_eq_true _ ▸ Bool.of_not_eq_true hshape
      rw [shapeChangedB_eq_false_iff] at hs
      constructor
      · rw [rewriteRows_length]
        exact hs.1
      · exact rewriteRows_cells t out _ hs.2

theorem extractGridDelta_clean (t : Term) (out : List GridLine)
    (hshape : shapeChangedB out t.screenLines t.columns = false)
    (hdam : t.damage = TermDamage.damagedRows []) :
    (extractGridDelta t out).1 = ⟨false, []⟩ := by
  have hpd : pullDamage t t.screenLines = ⟨false, []⟩ := by
    rw [pullDamage.eq_def, hdam]
    simp [GridDelta.default]
  simp [extractGridDelta, hshape, hpd]

/-- C2 counterexample: a fresh one-row emulator with an empty delta cache
and no pending damage; ExtractFull (which is read-only: it neither resets
damage nor updates the parser-side delta cache) followed by ExtractDelta
yields full = true, not the claimed empty delta. -/
theorem C2_counterexample :
    ¬ ((handleExtractDelta (handleExtractFull
          ⟨⟨1, 1, 0, fun _ _ => ⟨'x', ⟨0, 0, 0⟩, ⟨0, 0, 0⟩, false, false, false, false⟩,
            TermDamage.damagedRows []⟩, []⟩).2).1.full = false ∧
        (handleExtractDelta (handleExtractFull
          ⟨⟨1, 1, 0, fun _ _ => ⟨'x', ⟨0, 0, 0⟩, ⟨0, 0, 0⟩, false, false, false, false⟩,
            TermDamage.damagedRows []⟩, []⟩).2).1.dirty_rows = []) := by
  decide

/-- C2 amended: a delta extraction (ExtractDelta) followed, with no
intervening writes or grid-mutating control operations, by another delta
extraction yields a GridDelta with full = false and an empty dirty row
set.  (ExtractFull does not participate in the delta protocol: it neither
resets damage nor updates the delta cache.) -/
theorem C2_delta_then_delta_empty (st : ParserState) :
    (handleExtractDelta (handleExtractDelta st).2).1.full = false ∧
    (handleExtractDelta (handleExtractDelta st).2).1.dirty_rows = [] := by
  rcases hE : extractGridDelta st.term st.renderCache with ⟨d1, cache1, term1⟩
  have hterm : term1 = st.term.resetDamage := by
    have h := extractGridDelta_term st.term st.renderCache
    rw [hE] at h
    exact h
  have hshape := extractGridDelta_cache_shape st.term st.renderCache
  rw [hE] at hshape
  have hst1 : (handleExtractDelta st).2 = ⟨term1, cache1⟩ := by
    rw [handleExtractDelta, hE]
  rw [hst1, handleExtractDelta]
  have hsc : shapeChangedB cache1 term1.screenLines term1.columns = false := by
    subst hterm
    rw [shapeChangedB_eq_false_iff]
    exact hshape
  have hclean := extractGridDelta_clean term1 cache1 hsc (by subst hterm; rfl)
  rcases hE2 : extractGridDelta term1 cache1 with ⟨d2, cache2, term2⟩
  rw [hE2] at hclean
  have hd2 : d2 = ⟨false, []⟩ := hclean
  rw [hd2]
  exact ⟨rfl, rfl⟩

/-- C3: a cached viewport whose row count differs from the emulator's
current row count, or any of whose rows has a cell count different from
the current column count, forces the next delta extraction to full = true
with the partial damage set discarded before rows are rewritten: the
returned dirty rows are exactly 0..rows, independent of the pending
partial damage. -/
theorem C3_shape_change_forces_full (t : Term) (out : List GridLine)
    (h : out.length ≠ t.screenLines ∨ ∃ line ∈ out, line.cells.length ≠ t.columns) :
    (extractGridDelta t out).1.full = true ∧
    (extractGridDelta t out).1.dirty_rows = List.range t.screenLines := by
  have hs : shapeChangedB out t.screenLines t.columns = true := by
    rcases hb : shapeChangedB out t.screenLines t.columns with _ | _
    · rw [shapeChangedB_eq_false_iff] at hb
      rcases h with h | ⟨line, hmem, hne⟩
      · exact absurd hb.1 h
      · exact absurd (hb.2 line hmem) hne
    · rfl
  simp [extractGridDelta, hs]

theorem C3_witness :
    (extractGridDelta
        ⟨1, 1, 0, fun _ _ => ⟨'x', ⟨0, 0, 0⟩, ⟨0, 0, 0⟩, false, false, false, false⟩,
          TermDamage.damagedRows [0]⟩ []).1.full = true ∧
    (extractGridDelta
        ⟨1, 1, 0, fun _ _ => ⟨'x', ⟨0, 0, 0⟩, ⟨0, 0, 0⟩, false, false, false, false⟩,
          TermDamage.damagedRows [0]⟩ []).1.dirty_rows = List.range 1 :=
  C3_shape_change_forces_full _ [] (Or.inl (by decide))

/-- C4: the 256-color resolution maps indices 0-15 to the theme palette,
indices 16-231 to the 6x6x6 cube whose per-axis component is the ramp
{0, 95, 135, 175, 215, 255} (0 for level 0, else 55 + 40*level), and
indices 232-255 to the grayscale value 8 + 10*(idx - 232) on all three
channels; the boundary indices 0, 15, 16, 231, 232, 255 produce the
documented values. -/
theorem C4_color_resolution (theme : ThemeColors) (idx : Nat) :
    (∀ h : idx < 16, resolveIndexed theme idx = theme.ansi ⟨idx, h⟩) ∧
    (16 ≤ idx → idx < 232 →
      resolveIndexed theme idx =
        ⟨ramp (((idx - 16) / 36) % 6), ramp (((idx - 16) / 6) % 6), ramp ((idx - 16) % 6)⟩) ∧
    (232 ≤ idx → idx ≤ 255 →
      resolveIndexed theme idx =
        ⟨8 + 10 * (idx - 232), 8 + 10 * (idx - 232), 8 + 10 * (idx - 232)⟩) ∧
    (∀ v : Nat, v < 6 → ramp v = [0, 95, 135, 175, 215, 255].getD v 0) ∧
    (resolveIndexed theme 0 = theme.ansi 0 ∧ resolveIndexed theme 15 = theme.ansi 15 ∧
      resolveIndexed theme 16 = ⟨0, 0, 0⟩ ∧ resolveIndexed theme 231 = ⟨255, 255, 255⟩ ∧
      resolveIndexed theme 232 = ⟨8, 8, 8⟩ ∧ resolveIndexed theme 255 = ⟨238, 238, 238⟩) := by
  refine ⟨?_, ?_, ?_, ?_, rfl, rfl, rfl, rfl, rfl, rfl⟩
  · intro h
    rw [resolveIndexed, dif_pos h]
  · intro h1 h2
    rw [resolveIndexed, dif_neg (by omega), index256ToRgb, if_neg (by omega), if_pos h2]
    rfl
  · intro h1 h2
    rw [resolveIndexed, dif_neg (by omega), index256ToRgb, if_neg (by omega),
      if_neg (by omega)]
  · intro v hv
    interval_cases v <;> rfl

theorem clampSpan_bounds (len colStart colEnd row : Nat) (color : Rgb) (span : BgSpan)
    (h : (if colEnd ≤ colStart then (none : Option BgSpan)
          else if min colEnd (len % 65536) ≤ colStart then none
          else some ⟨colStart, row, min colEnd (len % 65536) - colStart, color⟩) =
        some span) :
    span.row = row ∧ span.col + span.width ≤ len ∧ 0 < span.width := by
  have hm1 : min colEnd (len % 65536) ≤ len % 65536 := min_le_right _ _
  generalize hM : min colEnd (len % 65536) = m at h hm1
  by_cases h1 : colEnd ≤ colStart
  · rw [if_pos h1] at h; cases h
  · rw [if_neg h1] at h
    by_cases h2 : m ≤ colStart
    · rw [if_pos h2] at h; cases h
    · rw [if_neg h2] at h
      cases h
      refine ⟨rfl, ?_, ?_⟩
      · show colStart + (m - colStart) ≤ len
        omega
      · show 0 < m - colStart
        omega

theorem selRowSpan_bounds {s e : Nat × Nat} {color : Rgb} {row : Nat} {line : GridLine}
    {span : BgSpan} (h : selRowSpan s e color row line = some span) :
    span.row = row ∧ span.col + span.width ≤ line.cells.length ∧ 0 < span.width := by
  have h' : (if (if row = e.2 then min (e.1 + 1) 65535 else line.cells.length % 65536) ≤
        (if row = s.2 then s.1 else 0) then (none : Option BgSpan)
      else if min (if row = e.2 then min (e.1 + 1) 65535 else line.cells.length % 65536)
          (line.cells.length % 65536) ≤ (if row = s.2 then s.1 else 0) then none
      else some ⟨if row = s.2 then s.1 else 0, row,
          min (if row = e.2 then min (e.1 + 1) 65535 else line.cells.length % 65536)
            (line.cells.length % 65536) - (if row = s.2 then s.1 else 0), color⟩) =
      some span := h
  exact clampSpan_bounds line.cells.length _ _ row color span h'

theorem selSpanRows_in_bounds (grid : List GridLine) (s e : Nat × Nat) (color : Rgb)
    (rows : List Nat) :
    ∀ span ∈ selSpanRows grid s e color rows,
      ∃ line, grid.get? span.row = some line ∧
        span.col + span.width ≤ line.cells.length ∧ 0 < span.width := by
  induction rows with
  | nil =>
    intro span hspan
    rw [selSpanRows] at hspan
    cases hspan
  | cons row rest ih =>
    intro span hspan
    rw [selSpanRows] at hspan
    split at hspan
    · cases hspan
    · rename_i line hg
      split at hspan
      · exact ih span hspan
      · rename_i sp hr
        rcases List.mem_cons.mp hspan with heq | hmem
        · subst heq
          obtain ⟨hrow, hb, hw⟩ := selRowSpan_bounds hr
          refine ⟨line, ?_, hb, hw⟩
          rw [hrow]
          exact hg
        · exact ih span hmem

/-- C10: for every grid and every selection input, including coordinates
beyond the grid bounds, the selection span rebuild never emits an
out-of-range span: every emitted span names a row present in the grid and
satisfies col + width at most that row's cell count (and has positive
width); the rebuild is a total function, so it cannot panic. -/
theorem C10_selection_spans_safe (grid : List GridLine)
    (selection : Option ((Nat × Nat) × (Nat × Nat))) (selection_bg : Rgb) :
    ∀ span ∈ rebuildSelectionBgSpans grid selection selection_bg,
      ∃ line, grid.get? span.row = some line ∧
        span.col + span.width ≤ line.cells.length ∧ 0 < span.width := by
  cases selection with
  | none =>
    intro span hspan
    rw [rebuildSelectionBgSpans] at hspan
    cases hspan
  | some se =>
    rcases se with ⟨s, e⟩
    intro span hspan
    rw [rebuildSelectionBgSpans] at hspan
    exact selSpanRows_in_bounds grid s e selection_bg _ span hspan

theorem C10_witness :
    ∃ line, ([⟨[⟨'x', ⟨0, 0, 0⟩, ⟨0, 0, 0⟩, false, false, false, false⟩]⟩] :
        List GridLine).get? (⟨0, 0, 1, ⟨9, 9, 9⟩⟩ : BgSpan).row = some line ∧
      (⟨0, 0, 1, ⟨9, 9, 9⟩⟩ : BgSpan).col + (⟨0, 0, 1, ⟨9, 9, 9⟩⟩ : BgSpan).width ≤
        line.cells.length ∧ 0 < (⟨0, 0, 1, ⟨9, 9, 9⟩⟩ : BgSpan).width :=
  C10_selection_spans_safe _ (some ((0, 0), (0, 0))) ⟨9, 9, 9⟩
    ⟨0, 0, 1, ⟨9, 9, 9⟩⟩ (by decide)

/-- C7: calling set_pane_content twice in a row with the same selection and
the same selection bg leaves the whole selection state (spans, latch and
rebuild counter) untouched on the second call; in general one call rebuilds
exactly when the selection or the bg differs from the latched values. -/
theorem C7_selection_idempotence (st : SelState) (grid grid2 : List GridLine)
    (selection : Option ((Nat × Nat) × (Nat × Nat))) (selection_bg : Rgb) :
    (setPaneContentSelection (setPaneContentSelection st grid selection selection_bg)
        grid2 selection selection_bg =
      setPaneContentSelection st grid selection selection_bg) ∧
    (∀ g s b, (setPaneContentSelection st g s b).rebuildCount =
      st.rebuildCount +
        (if st.last_selection = s ∧ st.last_selection_bg = b then 0 else 1)) := by
  constructor
  · have hlatch :
        (setPaneContentSelection st grid selection selection_bg).last_selection = selection ∧
        (setPaneContentSelection st grid selection selection_bg).last_selection_bg =
          selection_bg := by
      rw [setPaneContentSelection]
      split
      · exact ⟨rfl, rfl⟩
      · rename_i hcond
        rw [not_or, not_ne_iff, not_ne_iff] at hcond
        exact hcond
    rw [setPaneContentSelection, if_neg]
    rw [not_or, not_ne_iff, not_ne_iff]
    exact hlatch
  · intro g s b
    rw [setPaneContentSelection]
    by_cases hc : st.last_selection = s ∧ st.last_selection_bg = b
    · rw [if_neg (by rw [not_or, not_ne_iff, not_ne_iff]; exact hc), if_pos hc]
      omega
    · rw [if_pos, if_neg hc]
      rw [not_and_or] at hc
      rcases hc with hc | hc
      · exact Or.inl hc
      · exact Or.inr hc

/-- C8: try_push is a total (non-blocking) function; it returns Err with
the value handed back, leaving the ring unchanged, exactly when the
consumer is closed or the wrapped occupancy head - tail has reached
capacity; otherwise it returns Ok, the value is written at slot
head AND mask, and head advances by one with 64-bit wraparound while every
other field is unchanged. -/
theorem C8_try_push (α : Type) (r : SpscRing α) (v : α) :
    ((tryPush r v).2 = PushResult.err v ↔
      (r.consumerClosed = true ∨ r.capacity ≤ wrappingSub r.head r.tail)) ∧
    ((tryPush r v).2 = PushResult.err v → (tryPush r v).1 = r) ∧
    ((tryPush r v).2 = PushResult.ok →
      (tryPush r v).1.buf = r.buf.set (r.head &&& r.mask) (some v) ∧
      (tryPush r v).1.head = (r.head + 1) % U64 ∧
      (tryPush r v).1.tail = r.tail ∧
      (tryPush r v).1.capacity = r.capacity ∧
      (tryPush r v).1.mask = r.mask ∧
      (tryPush r v).1.consumerClosed = r.consumerClosed ∧
      (tryPush r v).1.producerClosed = r.producerClosed) := by
  rw [tryPush]
  by_cases h1 : r.consumerClosed = true
  · simp [h1]
  · rw [Bool.not_eq_true] at h1
    by_cases h2 : r.capacity ≤ wrappingSub r.head r.tail
    · simp [h1, h2]
    · simp [h1, h2]

theorem C8_witness :
    (tryPush (⟨[none, none], 1, 2, 0, 0, false, false⟩ : SpscRing Nat) 7).2 = PushResult.ok ∧
    (tryPush (⟨[none, none], 1, 2, 0, 0, false, false⟩ : SpscRing Nat) 7).1.head = 1 :=
  ⟨by decide,
   ((C8_try_push Nat ⟨[none, none], 1, 2, 0, 0, false, false⟩ 7).2.2 (by decide)).2.1⟩

theorem C4_witness :
    resolveIndexed ⟨fun _ => ⟨1, 2, 3⟩⟩ 100 =
      ⟨ramp (((100 - 16) / 36) % 6), ramp (((100 - 16) / 6) % 6), ramp ((100 - 16) % 6)⟩ :=
  (C4_color_resolution ⟨fun _ => ⟨1, 2, 3⟩⟩ 100).2.1 (by decide) (by decide)
